import Mathlib

/-!
Shallow embedding of the read-partitioning HMM core of MarginPolish
(src/impl/stRPHmm.c and src/impl/coordination.c), together with theorems
settling the specification claims about it.

Conventions used throughout:
* C `uint64_t` values are modelled as `Nat` reduced `% 2^64` where overflow
  can occur; `int64_t` coordinates are modelled as `Int`.
* Heap pointers to profile sequences / probability arrays are modelled as
  natural-number identifiers.
* Reference names (C strings compared with `strcmp`) are modelled as
  natural numbers compared with the natural order.
* `st_errAbort` (fatal abort) is modelled by returning `none` from an
  `Option`-valued function.
* `st_calloc` zero-initialises memory: fields of calloc'd structs that the
  source never assigns are modelled as `0`.
-/

/-- `MAX_READ_PARTITIONING_DEPTH`. Modelled from the spec: the macro lives in
the header `stRPHmm.h`, which is not part of the sources; the spec fixes
`MAX_DEPTH = 64` (the machine word width). -/
def MAX_READ_PARTITIONING_DEPTH : ℕ := 64

/-- `NUCLEOTIDE_ALPHABET_SIZE`. Modelled from the spec: the macro lives in the
missing header; the spec fixes the semantic alphabet at 4 nucleotides and the
substitution matrix at 4×4 row-major (`[source*4 + derived]`). -/
def NUCLEOTIDE_ALPHABET_SIZE : ℕ := 4

/-- `2^64`, the modulus of C `uint64_t` arithmetic. -/
def U64 : ℕ := 2 ^ 64

/-- `mergePartitionsOrMasks` (stRPHmm.c:20-27):
`(partition1 << depthOfPartition2) | partition2`, as `uint64_t` arithmetic. -/
def mergePartitionsOrMasks (partition1 partition2 _depthOfPartition1 depthOfPartition2 : ℕ) : ℕ :=
  ((partition1 <<< depthOfPartition2) ||| partition2) % U64

/-- `maskPartition` (stRPHmm.c:29-34): `partition & mask`. -/
def maskPartition (partition mask : ℕ) : ℕ :=
  partition &&& mask

/-- `seqInHap1` (stRPHmm.c:36-43): `(partition >> seqIndex) & 1`. -/
def seqInHap1 (partition : ℕ) (seqIndex : ℕ) : Bool :=
  (partition >>> seqIndex) &&& 1 == 1

/-- `stRPCell_construct` (stRPHmm.c:1549-1552).  The source allocates the cell
with `st_calloc` (so `partition`, `forwardLogProb`, `backwardLogProb` and
`nCell` are all zero/NULL) and returns it WITHOUT ever storing the `partition`
argument into the cell.  We model the partition field of the returned cell:
it is `0` whatever the argument is. -/
def stRPCell_construct (_partition : ℕ) : ℕ :=
  0

/-- A profile sequence header (`stProfileSeq`).  `id` models the address of
the struct (used for identity in `seqHeaders` / `stSet`), `probsId` models
the address of its `profileProbs` array (stored in column `seqs`). -/
structure StProfileSeq where
  id : ℕ
  probsId : ℕ
  referenceName : ℕ
  refStart : ℤ
  length : ℤ
  deriving DecidableEq, Repr

/-- A column of the HMM (`stRPColumn`), restricted to the fields the claims
are about: reference interval, depth, the `seqHeaders` and `seqs` pointer
arrays (as identifier lists) and the linked chain of cells, represented by
the list of their `partition` fields in chain order. -/
structure StRPColumn where
  refStart : ℤ
  length : ℤ
  depth : ℕ
  seqHeaders : List ℕ
  seqs : List ℕ
  cells : List ℕ
  deriving DecidableEq, Repr

/-- A read-partitioning HMM (`stRPHmm`), restricted to the fields the claims
are about.  The alternating column / merge-column chain is represented by the
list of its columns in order (merge columns are modelled separately where a
claim needs them). -/
structure StRPHmm where
  referenceName : ℕ
  refStart : ℤ
  refLength : ℤ
  columnNumber : ℕ
  maxDepth : ℕ
  logSubMatrixId : ℕ
  columns : List StRPColumn
  deriving DecidableEq, Repr

/-- One step of `stRPHmm_overlapOnReference` (stRPHmm.c:1414-1439); `fuel`
bounds the single argument-swapping self-call (the source recurses at most
once).  `none` models the `st_errAbort` on a non-positive length interval. -/
def stRPHmm_overlapOnReferenceGo : ℕ → StRPHmm → StRPHmm → Option Bool
  | 0, _, _ => none
  | fuel + 1, hmm1, hmm2 =>
    if hmm1.refLength ≤ 0 ∨ hmm2.refLength ≤ 0 then none
    else if hmm1.referenceName ≠ hmm2.referenceName then some false
    else if hmm1.refStart > hmm2.refStart then stRPHmm_overlapOnReferenceGo fuel hmm2 hmm1
    else some (decide (hmm1.refStart + hmm1.refLength > hmm2.refStart))

/-- `stRPHmm_overlapOnReference` (stRPHmm.c:1414-1439).  Fuel 2 suffices: after
the swap the guard `hmm1->refStart > hmm2->refStart` is false. -/
def stRPHmm_overlapOnReference (hmm1 hmm2 : StRPHmm) : Option Bool :=
  stRPHmm_overlapOnReferenceGo 2 hmm1 hmm2

/-- `stRPHmm_construct` (stRPHmm.c:679-716): wraps a single profile sequence
into a one-column HMM.  The two cells are produced by
`stRPCell_construct(1)` and `stRPCell_construct(0)`, whose `partition`
argument the constructor discards (see `stRPCell_construct`). -/
def stRPHmm_construct (profileSeq : StProfileSeq) (logSubMatrixId : ℕ) : StRPHmm :=
  { referenceName := profileSeq.referenceName
    refStart := profileSeq.refStart
    refLength := profileSeq.length
    columnNumber := 1
    maxDepth := 1
    logSubMatrixId := logSubMatrixId
    columns := [{ refStart := profileSeq.refStart
                  length := profileSeq.length
                  depth := 1
                  seqHeaders := [profileSeq.id]
                  seqs := [profileSeq.probsId]
                  cells := [stRPCell_construct 1, stRPCell_construct 0] }] }

/-- `cmpint` (stRPHmm.c:75-77): `i > j ? 1 : i < j ? -1 : 0`. -/
def cmpint (i j : ℤ) : Ordering :=
  if i > j then .gt else if i < j then .lt else .eq

/-- `strcmp` on reference names, which are modelled as naturals ordered like
the strings they stand for. -/
def strcmpN (x y : ℕ) : Ordering :=
  if x < y then .lt else if y < x then .gt else .eq

/-- `stRPHmm_cmpFn` (stRPHmm.c:79-92): order HMMs by reference name, then
reference start, then reference length. -/
def stRPHmm_cmpFn (hmm1 hmm2 : StRPHmm) : Ordering :=
  let i := strcmpN hmm1.referenceName hmm2.referenceName
  if i = .eq then
    let i2 := cmpint hmm1.refStart hmm2.refStart
    if i2 = .eq then cmpint hmm1.refLength hmm2.refLength else i2
  else i

/-- The elements of the sorted set that the iterator of
`getNextClosestNonoverlappingHmm` (coordination.c:19-55) visits after its
starting element `hmm1`: the members of the set strictly greater than `hmm1`
in `stRPHmm_cmpFn` order, in order. -/
def hmmsAfter (hmm1 : StRPHmm) (readHmms : List StRPHmm) : List StRPHmm :=
  readHmms.filter (fun hmm2 => decide (stRPHmm_cmpFn hmm1 hmm2 = .lt))

/-- `getNextClosestNonoverlappingHmm` (coordination.c:19-55): the first HMM
after `hmm1` in the sorted set that is on a different reference, or on the
same reference and non-overlapping (`hmm1.refStart + hmm1.refLength <=
hmm2.refStart`); `none` when the iteration runs out. -/
def getNextClosestNonoverlappingHmm (hmm1 : StRPHmm) (readHmms : List StRPHmm) : Option StRPHmm :=
  (hmmsAfter hmm1 readHmms).find? (fun hmm2 =>
    decide (hmm1.referenceName ≠ hmm2.referenceName ∨
      hmm1.refStart + hmm1.refLength ≤ hmm2.refStart))

/-- The inner loop of `getTilingPaths` (coordination.c:205-215): starting from
the chain head `hmm` (still a member of `hmms`), repeatedly pick the next
closest non-overlapping HMM, removing each chained element from the set.
Returns the rest of the chain and the set of HMMs left over.  `fuel` bounds
the loop; `getTilingPaths` passes the set size, which suffices because every
step removes one member. -/
def tilingChainGo : ℕ → StRPHmm → List StRPHmm → List StRPHmm × List StRPHmm
  | 0, hmm, hmms => ([], hmms.erase hmm)
  | fuel + 1, hmm, hmms =>
    match getNextClosestNonoverlappingHmm hmm hmms with
    | none => ([], hmms.erase hmm)
    | some hmm2 =>
      let r := tilingChainGo fuel hmm2 (hmms.erase hmm)
      (hmm2 :: r.1, r.2)

/-- The outer loop of `getTilingPaths` (coordination.c:186-222): while the set
is non-empty, start a new tiling path at the least element and chain from it.
`fuel` bounds the number of paths; `getTilingPaths` passes the set size. -/
def getTilingPathsGo : ℕ → List StRPHmm → List (List StRPHmm)
  | 0, _ => []
  | _ + 1, [] => []
  | fuel + 1, hmm :: rest =>
    let r := tilingChainGo (hmm :: rest).length hmm (hmm :: rest)
    (hmm :: r.1) :: getTilingPathsGo fuel r.2

/-- `getTilingPaths` (coordination.c:186-222).  The sorted set is modelled as
the list of its members in `stRPHmm_cmpFn` order. -/
def getTilingPaths (hmms : List StRPHmm) : List (List StRPHmm) :=
  getTilingPathsGo hmms.length hmms

/-- `stRPHmm_fuse` (stRPHmm.c:854-923).  `none` models the aborts (different
reference names, overlapping or zero-length intervals, wrong order, different
substitution matrices).  Note the gap computation is transcribed exactly as
written in the source: `rightHmm->refStart - leftHmm->refStart +
leftHmm->refLength` parses as `(rightHmm->refStart - leftHmm->refStart) +
leftHmm->refLength`. -/
def stRPHmm_fuse (leftHmm rightHmm : StRPHmm) : Option StRPHmm :=
  if leftHmm.referenceName ≠ rightHmm.referenceName then none
  else match stRPHmm_overlapOnReference leftHmm rightHmm with
  | none => none
  | some true => none
  | some false =>
    if leftHmm.refStart ≥ rightHmm.refStart then none
    else if leftHmm.logSubMatrixId ≠ rightHmm.logSubMatrixId then none
    else
      let gapLength : ℤ := rightHmm.refStart - leftHmm.refStart + leftHmm.refLength
      let bridge : List StRPColumn :=
        if gapLength > 0 then
          [{ refStart := leftHmm.refStart + leftHmm.refLength
             length := gapLength
             depth := 0
             seqHeaders := []
             seqs := []
             cells := [stRPCell_construct 0] }]
        else []
      some { referenceName := leftHmm.referenceName
             refStart := leftHmm.refStart
             refLength := rightHmm.refStart + rightHmm.refLength - leftHmm.refStart
             columnNumber := leftHmm.columnNumber + rightHmm.columnNumber +
               (if gapLength > 0 then 1 else 0)
             maxDepth := max leftHmm.maxDepth rightHmm.maxDepth
             logSubMatrixId := leftHmm.logSubMatrixId
             columns := leftHmm.columns ++ bridge ++ rightHmm.columns }

/-- The column-splitting part of `stRPColumn_split` (stRPHmm.c:1500-1543),
transcribed from the source: the function constructs the right half at
`column->refStart + firstHalfLength` with length
`column->length - firstHalfLength`, but it NEVER assigns `column->length`,
so the original (left) column keeps its full length.  The right half copies
the `seqHeaders`/`seqs` arrays and rebuilds the cell chain through
`stRPCell_construct(cell->partition)` (whose argument the constructor
discards, so the copies all carry partition 0).  The identity merge column
inserted between the halves is not part of this column-list projection. -/
def stRPColumn_splitSpan (column : StRPColumn) (firstHalfLength : ℤ) : StRPColumn × StRPColumn :=
  (column,
   { refStart := column.refStart + firstHalfLength
     length := column.length - firstHalfLength
     depth := column.depth
     seqHeaders := column.seqHeaders
     seqs := column.seqs
     cells := column.cells.map stRPCell_construct })

/-- The parallel column walk at the end of `stRPHmm_alignColumns`
(stRPHmm.c:1004-1027): walk the two column chains in lockstep, splitting the
longer of the two current columns at the shorter length; stop when the first
chain is exhausted.  Returns the two resulting chains and how many splits
each side received (each split increments the owning HMM's `columnNumber`).
`none` models running off the end of the second chain (a NULL dereference in
the source). -/
def alignSplitWalkGo : ℕ → List StRPColumn → List StRPColumn →
    Option (List StRPColumn × List StRPColumn × ℕ × ℕ)
  | 0, _, _ => none
  | fuel + 1, column1 :: rest1, column2 :: rest2 =>
    if column1.length > column2.length then
      let s := stRPColumn_splitSpan column1 column2.length
      match alignSplitWalkGo fuel (s.2 :: rest1) rest2 with
      | none => none
      | some (x, y, k1, k2) => some (s.1 :: x, column2 :: y, k1 + 1, k2)
    else if column1.length < column2.length then
      let s := stRPColumn_splitSpan column2 column1.length
      if rest1.isEmpty then
        -- column1 has no following merge column: the loop breaks, leaving
        -- both halves of the split in the second chain
        some ([column1], s.1 :: s.2 :: rest2, 0, 1)
      else
        match alignSplitWalkGo fuel rest1 (s.2 :: rest2) with
        | none => none
        | some (x, y, k1, k2) => some (column1 :: x, s.1 :: y, k1, k2 + 1)
    else
      if rest1.isEmpty then some ([column1], column2 :: rest2, 0, 0)
      else
        match alignSplitWalkGo fuel rest1 rest2 with
        | none => none
        | some (x, y, k1, k2) => some (column1 :: x, column2 :: y, k1, k2)
  | _ + 1, _, _ => none

/-- The parallel column walk with the fuel that always suffices: every
iteration removes at least one column from the two remaining chains, so the
total number of columns bounds the iteration count. -/
def alignSplitWalk (l1 l2 : List StRPColumn) :
    Option (List StRPColumn × List StRPColumn × ℕ × ℕ) :=
  alignSplitWalkGo (l1.length + l2.length) l1 l2

/-- One activation of `stRPHmm_alignColumns` (stRPHmm.c:925-1030).  `fuel`
bounds the argument-swapping self-calls (the source recurses at most twice:
once to order the start coordinates and once to order the interval lengths).
`none` models the abort on non-overlapping inputs.  Note the empty suffix
column appended to `hmm2` is transcribed exactly as in the source: its start
coordinate is computed from `hmm1->lastColumn`. -/
def stRPHmm_alignColumnsGo : ℕ → StRPHmm → StRPHmm → Option (StRPHmm × StRPHmm)
  | 0, _, _ => none
  | fuel + 1, hmm1, hmm2 =>
    match stRPHmm_overlapOnReference hmm1 hmm2 with
    | none => none
    | some false => none
    | some true =>
      if hmm1.refStart > hmm2.refStart then
        match stRPHmm_alignColumnsGo fuel hmm2 hmm1 with
        | none => none
        | some (a, b) => some (b, a)
      else
        let hmm2 :=
          if hmm1.refStart < hmm2.refStart then
            { hmm2 with
              columns := { refStart := hmm1.refStart
                           length := hmm2.refStart - hmm1.refStart
                           depth := 0
                           seqHeaders := []
                           seqs := []
                           cells := [stRPCell_construct 0] } :: hmm2.columns
              refLength := hmm2.refLength + (hmm2.refStart - hmm1.refStart)
              refStart := hmm1.refStart
              columnNumber := hmm2.columnNumber + 1 }
          else hmm2
        if hmm1.refLength < hmm2.refLength then
          match stRPHmm_alignColumnsGo fuel hmm2 hmm1 with
          | none => none
          | some (a, b) => some (b, a)
        else
          match hmm1.columns.getLast? with
          | none => none
          | some lastColumn1 =>
            let hmm2 :=
              if hmm1.refLength > hmm2.refLength then
                { hmm2 with
                  columns := hmm2.columns ++
                    [{ refStart := lastColumn1.refStart + lastColumn1.length
                       length := hmm1.refLength - hmm2.refLength
                       depth := 0
                       seqHeaders := []
                       seqs := []
                       cells := [stRPCell_construct 0] }]
                  refLength := hmm1.refLength
                  columnNumber := hmm2.columnNumber + 1 }
              else hmm2
            match alignSplitWalk hmm1.columns hmm2.columns with
            | none => none
            | some (cs1, cs2, k1, k2) =>
              some ({ hmm1 with columns := cs1, columnNumber := hmm1.columnNumber + k1 },
                    { hmm2 with columns := cs2, columnNumber := hmm2.columnNumber + k2 })

/-- `stRPHmm_alignColumns` (stRPHmm.c:925-1030); fuel 4 covers the at most two
nested argument-swapping self-calls. -/
def stRPHmm_alignColumns (hmm1 hmm2 : StRPHmm) : Option (StRPHmm × StRPHmm) :=
  stRPHmm_alignColumnsGo 4 hmm1 hmm2

/-- The cell cross-product loop of `stRPHmm_createCrossProductOfTwoAlignedHmm`
(stRPHmm.c:1102-1114), transcribed from the source: `pCell` starts at
`&column->head`, and after linking the first constructed cell the source sets
`pCell = &cell`, re-pointing it at the loop-local variable instead of at the
new cell's `nCell` field.  Every later `*pCell = cell` therefore writes the
local variable, not the chain, so the column's chain consists of exactly the
first constructed cell (whose `nCell` is NULL from `st_calloc`), and that
cell's partition is 0 because `stRPCell_construct` discards its argument.
`none` models the NULL dereference of an empty input cell chain by the
do-while loops. -/
def crossProductCellChain (column1 column2 : StRPColumn) : Option (List ℕ) :=
  match column1.cells, column2.cells with
  | p1 :: _, p2 :: _ =>
    some [stRPCell_construct (mergePartitionsOrMasks p1 p2 column1.depth column2.depth)]
  | _, _ => none

/-- The column loop of `stRPHmm_createCrossProductOfTwoAlignedHmm`
(stRPHmm.c:1060-1162), projected onto the column list (the merge columns the
source builds between consecutive columns are omitted from this projection).
Note `seqHeaders` is transcribed from the source, which `memcpy`s
`column2->seqs` (not `column2->seqHeaders`) into the upper half of the new
`seqHeaders` array. -/
def crossProductColumns : List StRPColumn → List StRPColumn → Option (List StRPColumn)
  | [], [] => some []
  | column1 :: rest1, column2 :: rest2 =>
    match crossProductCellChain column1 column2 with
    | none => none
    | some cells =>
      let newColumnDepth := column1.depth + column2.depth
      let column : StRPColumn :=
        { refStart := column1.refStart
          length := column1.length
          depth := newColumnDepth
          seqHeaders := column1.seqHeaders ++ column2.seqs
          seqs := column1.seqs ++ column2.seqs
          cells := cells }
      match crossProductColumns rest1 rest2 with
      | none => none
      | some cols => some (column :: cols)
  | _, _ => none

/-- `stRPHmm_createCrossProductOfTwoAlignedHmm` (stRPHmm.c:1032-1165).
`none` models the aborts (inputs not aligned, different substitution
matrices). -/
def stRPHmm_createCrossProductOfTwoAlignedHmm (hmm1 hmm2 : StRPHmm) : Option StRPHmm :=
  if stRPHmm_cmpFn hmm1 hmm2 ≠ .eq ∨ hmm1.columnNumber ≠ hmm2.columnNumber then none
  else if hmm1.logSubMatrixId ≠ hmm2.logSubMatrixId then none
  else match crossProductColumns hmm1.columns hmm2.columns with
  | none => none
  | some cols =>
    some { referenceName := hmm1.referenceName
           refStart := hmm1.refStart
           refLength := hmm1.refLength
           columnNumber := hmm1.columnNumber
           maxDepth := cols.foldl (fun m c => if c.depth > m then c.depth else m) 0
           logSubMatrixId := hmm1.logSubMatrixId
           columns := cols }

/-- `stRPHmm_partitionSequencesByStatePath` (stRPHmm.c:798-820), transcribed
from the source: the local `column` is initialised to `hmm->firstColumn`
before the loop over the path and is never advanced inside it, so every path
cell is tested against the first column's `depth` and `seqHeaders`.  The
`stSet` of headers is modelled as the list of inserted header ids (membership
is what the set provides). -/
def stRPHmm_partitionSequencesByStatePath (hmm : StRPHmm) (path : List ℕ) : List ℕ :=
  match hmm.columns.head? with
  | none => []
  | some column =>
    path.foldl (fun acc partition =>
      acc ++ ((List.range column.depth).filter (fun j => seqInHap1 partition j)).map
        (fun j => column.seqHeaders.getD j 0)) []

/-- Modelled from the spec: the set of profile-sequence headers `h` such that
for some column index `i`, `h` occupies slot `j` of column `i`'s
`seqHeaders` and `seqInHap1(path[i].partition, j)` holds — i.e. membership
decided per column against that column's own path cell. -/
def specPartitionSequencesByStatePath (hmm : StRPHmm) (path : List ℕ) : List ℕ :=
  (List.range (min path.length hmm.columns.length)).foldl (fun acc i =>
    let column := hmm.columns.getD i { refStart := 0, length := 0, depth := 0,
                                       seqHeaders := [], seqs := [], cells := [] }
    acc ++ ((List.range column.depth).filter (fun j => seqInHap1 (path.getD i 0) j)).map
      (fun j => column.seqHeaders.getD j 0)) []

/-- A column as seen by the emission kernel: its depth, length, and for each
read slot `i` and position `p` the 8-entry probability record
`column->seqs[i][p].probs` (each entry an unsigned 8-bit value). -/
structure BitColumn where
  depth : ℕ
  length : ℕ
  seqs : List (List (List ℕ))
  deriving DecidableEq, Repr

/-- `column->seqs[i][position].probs[characterIndex]`. -/
def profileProb (column : BitColumn) (i position characterIndex : ℕ) : ℕ :=
  ((column.seqs.getD i []).getD position []).getD characterIndex 0

/-- `popcount64` (stRPHmm.c:533-541): the Hamming weight of the low 64 bits
of its argument (the source computes it with the standard bit-twiddling
scheme; its documented meaning is the Hamming weight). -/
def popcount64 (x : ℕ) : ℕ :=
  ((List.range 64).filter (fun i => x.testBit i)).length

/-- `calculateBitCountVector` (stRPHmm.c:552-563), transcribed from the
source: the accumulator starts at 0 and is combined with `&=` (bitwise AND),
exactly as written — `bitCountVector &= (p->probs[characterIndex] >> bit) << i`. -/
def calculateBitCountVector (column : BitColumn) (position characterIndex bit : ℕ) : ℕ :=
  (List.range column.depth).foldl
    (fun bitCountVector i =>
      bitCountVector &&& (((profileProb column i position characterIndex >>> bit) <<< i) % U64))
    0

/-- The array offset computed by `retrieveBitCountVector` (stRPHmm.c:543-550):
`position * sizeof(uint8_t) * NUCLEOTIDE_ALPHABET_SIZE + characterIndex *
sizeof(uint8_t) + bit`, with `sizeof(uint8_t) = 1`. -/
def retrieveBitCountVectorIndex (position characterIndex bit : ℕ) : ℕ :=
  position * 1 * NUCLEOTIDE_ALPHABET_SIZE + characterIndex * 1 + bit

/-- `calculateCountBitVectors` (stRPHmm.c:565-586): the bit count vector array
for a column, as the map from array offsets to stored words.  The source
writes, for every position and character, the entries with `bit <
sizeof(uint8_t) = 1`; offsets it never writes are unspecified heap contents
(`st_malloc`), modelled as 0 — the reader `getExpectedInstanceNumber` only
reads written offsets. -/
def calculateCountBitVectors (column : BitColumn) : ℕ → ℕ :=
  (List.range column.length).foldl (fun f i =>
    (List.range NUCLEOTIDE_ALPHABET_SIZE).foldl (fun f j =>
      (List.range 1).foldl (fun f k =>
        Function.update f (retrieveBitCountVectorIndex i j k) (calculateBitCountVector column i j k)) f) f)
    (fun _ => 0)

/-- `getExpectedInstanceNumber` (stRPHmm.c:588-605), transcribed from the
source: the raw count sums `popcount64(vector & partition) * 2^i` for `i <
sizeof(uint8_t) = 1`, and is divided by `(pow(2, NUCLEOTIDE_ALPHABET_SIZE) -
1) * depth` — i.e. `15 * depth`.  The C division is on `double`; here it is
exact rational division (with the Lean convention `x / 0 = 0` for the
depth-0 case, where C would divide by zero). -/
def getExpectedInstanceNumber (bitCountVectors : ℕ → ℕ) (depth partition : ℕ)
    (position characterIndex : ℕ) : ℚ :=
  let rawExpectedCount :=
    (List.range 1).foldl (fun acc i =>
      acc + popcount64 (bitCountVectors (retrieveBitCountVectorIndex position characterIndex i)
        &&& partition) * 2 ^ i) 0
  (rawExpectedCount : ℚ) / (((2 : ℚ) ^ NUCLEOTIDE_ALPHABET_SIZE - 1) * depth)

/-- Modelled from the spec: the naive expected instance count — the sum of
`p_i / 255` over the reads `i` whose bit is set in the partition, divided by
the column depth `D` (equivalently, `Σ_{i in P} p_i / (255·D)`). -/
def specNaiveExpectedInstanceNumber (column : BitColumn) (depth partition : ℕ)
    (position characterIndex : ℕ) : ℚ :=
  ((((List.range depth).filter (fun i => partition.testBit i)).map
    (fun i => (profileProb column i position characterIndex : ℚ) / 255)).sum) / depth

/-- Log-space probabilities: a C `double` holding either a finite log
probability or `ST_MATH_LOG_ZERO = -INFINITY`, the latter modelled as
`none`. -/
abbrev LogP := Option ℝ

/-- Modelled from the spec: sonLib's `stMath_logAdd` on finite values (sonLib
is not part of this repository).  The spec's numerical contract is
`logAdd(a,b) = max + log1p(exp(min - max))`. -/
noncomputable def stMath_logAdd (x y : ℝ) : ℝ :=
  max x y + Real.log (1 + Real.exp (min x y - max x y))

/-- Modelled from the spec: `stMath_logAdd` including its log-zero
short-circuit, on the `LogP` representation of doubles. -/
noncomputable def logAddOpt : LogP → LogP → LogP
  | none, b => b
  | some a, none => some a
  | some a, some b => some (stMath_logAdd a b)

/-- `getSubstitutionProbability` (stRPHmm.c:607-613):
`subMatrix[sourceCharacterIndex * NUCLEOTIDE_ALPHABET_SIZE + derivedCharacterIndex]`.
The `double*` matrix is modelled as a function from offsets to reals. -/
def getSubstitutionProbability (subMatrix : ℕ → ℝ) (sourceCharacterIndex derivedCharacterIndex : ℕ) : ℝ :=
  subMatrix (sourceCharacterIndex * NUCLEOTIDE_ALPHABET_SIZE + derivedCharacterIndex)

/-- `getLogProbOfReadCharacters` (stRPHmm.c:615-626). -/
noncomputable def getLogProbOfReadCharacters (expectedInstanceNumbers : ℕ → ℝ)
    (logSubMatrix : ℕ → ℝ) (sourceCharacterIndex : ℕ) : ℝ :=
  (List.range (NUCLEOTIDE_ALPHABET_SIZE - 1)).foldl
    (fun acc i => acc +
      getSubstitutionProbability logSubMatrix sourceCharacterIndex (i + 1) *
        expectedInstanceNumbers (i + 1))
    (getSubstitutionProbability logSubMatrix sourceCharacterIndex 0 * expectedInstanceNumbers 0)

/-- `columnIndexLogProbability` (stRPHmm.c:628-649). -/
noncomputable def columnIndexLogProbability (column : BitColumn) (index partition : ℕ)
    (bitCountVectors : ℕ → ℕ) (logSubMatrix : ℕ → ℝ) : ℝ :=
  let expectedInstanceNumbers : ℕ → ℝ := fun i =>
    ((getExpectedInstanceNumber bitCountVectors column.depth partition index i : ℚ) : ℝ)
  (List.range (NUCLEOTIDE_ALPHABET_SIZE - 1)).foldl
    (fun acc i => stMath_logAdd acc
      (getLogProbOfReadCharacters expectedInstanceNumbers logSubMatrix (i + 1)))
    (getLogProbOfReadCharacters expectedInstanceNumbers logSubMatrix 0)

/-- `partitionLogProbability` (stRPHmm.c:651-664). -/
noncomputable def partitionLogProbability (column : BitColumn) (partition : ℕ)
    (bitCountVectors : ℕ → ℕ) (logSubMatrix : ℕ → ℝ) : ℝ :=
  (List.range (column.length - 1)).foldl
    (fun acc i => acc + columnIndexLogProbability column (i + 1) partition bitCountVectors logSubMatrix)
    (columnIndexLogProbability column 0 partition bitCountVectors logSubMatrix)

/-- `emissionLogProbability` (stRPHmm.c:666-673):
`partitionLogProbability(cell->partition) + partitionLogProbability(~cell->partition)`,
where `~` is 64-bit complement (for `partition < 2^64` this is
`2^64 - 1 - partition`). -/
noncomputable def emissionLogProbability (column : BitColumn) (partition : ℕ)
    (bitCountVectors : ℕ → ℕ) (logSubMatrix : ℕ → ℝ) : ℝ :=
  partitionLogProbability column partition bitCountVectors logSubMatrix +
    partitionLogProbability column (U64 - 1 - partition) bitCountVectors logSubMatrix

/-- `stRPMergeCell`: its two partition keys (the log probabilities are carried
by the inference passes, not by the structure, in this embedding). -/
structure StRPMergeCell where
  fromPartition : ℕ
  toPartition : ℕ
  deriving DecidableEq, Repr

/-- `stRPMergeColumn`: masks and the merge cells, in hash-iteration order. -/
structure StRPMergeColumn where
  maskFrom : ℕ
  maskTo : ℕ
  mergeCells : List StRPMergeCell
  deriving DecidableEq, Repr

/-- A column as seen by forward/backward: its emission data and its cell
chain (the cells' partitions in chain order). -/
structure StRPColumnFB where
  bits : BitColumn
  cells : List ℕ
  deriving DecidableEq, Repr

/-- An `stRPHmm` as seen by forward/backward: the alternating chain of
columns and merge columns (`mergeColumns.length = columns.length - 1`), and
the substitution matrix. -/
structure StRPHmmFB where
  columns : List StRPColumnFB
  mergeColumns : List StRPMergeColumn
  logSubMatrix : ℕ → ℝ

/-- `stRPMergeColumn_getNextMergeCell` (stRPHmm.c:1632-1639), as the index of
the merge cell keyed by `cell->partition & maskFrom` in `mergeCellsFrom`
(the hash lookup is modelled as the first merge cell with that key). -/
def stRPMergeColumn_getNextMergeCellIdx (partition : ℕ) (mergeColumn : StRPMergeColumn) : Option ℕ :=
  mergeColumn.mergeCells.findIdx? (fun mCell =>
    mCell.fromPartition == maskPartition partition mergeColumn.maskFrom)

/-- `stRPMergeColumn_getPreviousMergeCell` (stRPHmm.c:1641-1648), as the index
of the merge cell keyed by `cell->partition & maskTo` in `mergeCellsTo`. -/
def stRPMergeColumn_getPreviousMergeCellIdx (partition : ℕ) (mergeColumn : StRPMergeColumn) : Option ℕ :=
  mergeColumn.mergeCells.findIdx? (fun mCell =>
    mCell.toPartition == maskPartition partition mergeColumn.maskTo)

/-- The per-column results of `stRPHmm_forward` (stRPHmm.c:1202-1260):
`cellProbs` are the cells' `forwardLogProb`s per column, `columnProbs` the
columns' `forwardLogProb`s, `mergeProbs` the merge cells' `forwardLogProb`s
per merge column, `totalProb` the hmm's `forwardLogProb`. -/
structure ForwardResult where
  cellProbs : List (List LogP)
  columnProbs : List LogP
  mergeProbs : List (List LogP)
  totalProb : LogP

/-- The forward probability of one cell (stRPHmm.c:1218-1232): the previous
merge cell's forward probability (log-one at the first column; the cell stays
at its log-zero initialisation when the merge cell is missing), plus the
emission probability. -/
noncomputable def forwardCellProb (logSubMatrix : ℕ → ℝ)
    (prev : Option (StRPMergeColumn × List LogP)) (column : StRPColumnFB)
    (bitCountVectors : ℕ → ℕ) (partition : ℕ) : LogP :=
  let base : LogP :=
    match prev with
    | none => some 0
    | some (m, probs) =>
      match stRPMergeColumn_getPreviousMergeCellIdx partition m with
      | none => none
      | some k => probs.getD k none
  base.map (· + emissionLogProbability column.bits partition bitCountVectors logSubMatrix)

/-- The forward probabilities accumulated into the next merge column's cells
(stRPHmm.c:1235-1241): each merge cell log-accumulates the forward
probabilities of the cells that feed into it
(`mCell->forwardLogProb = stMath_logAdd(cell->forwardLogProb, mCell->forwardLogProb)`). -/
noncomputable def mergeForwardProbs (m : StRPMergeColumn) (cells : List ℕ)
    (cellProbs : List LogP) : List LogP :=
  (List.range m.mergeCells.length).map (fun k =>
    (cells.zip cellProbs).foldl (fun acc pc =>
      if stRPMergeColumn_getNextMergeCellIdx pc.1 m = some k then logAddOpt pc.2 acc else acc) none)

/-- The column loop of `stRPHmm_forward` (stRPHmm.c:1202-1260).  `prev`
carries the preceding merge column and its computed merge-cell forward
probabilities.  A column with no following merge column is the last column:
its cells accumulate into the hmm total. -/
noncomputable def stRPHmm_forwardGo (logSubMatrix : ℕ → ℝ) :
    Option (StRPMergeColumn × List LogP) → List StRPColumnFB → List StRPMergeColumn → ForwardResult
  | _, [], _ => ⟨[], [], [], none⟩
  | prev, column :: _, [] =>
    let bitCountVectors := calculateCountBitVectors column.bits
    let cf := column.cells.map (forwardCellProb logSubMatrix prev column bitCountVectors)
    { cellProbs := [cf]
      columnProbs := [cf.foldl logAddOpt none]
      mergeProbs := []
      totalProb := cf.foldl logAddOpt none }
  | prev, column :: rest, m :: mrest =>
    let bitCountVectors := calculateCountBitVectors column.bits
    let cf := column.cells.map (forwardCellProb logSubMatrix prev column bitCountVectors)
    let mp := mergeForwardProbs m column.cells cf
    let r := stRPHmm_forwardGo logSubMatrix (some (m, mp)) rest mrest
    { cellProbs := cf :: r.cellProbs
      columnProbs := cf.foldl logAddOpt none :: r.columnProbs
      mergeProbs := mp :: r.mergeProbs
      totalProb := r.totalProb }

/-- `stRPHmm_forward` (stRPHmm.c:1202-1260), after
`stRPHmm_initialiseForwardProbs` has set every probability to log-zero. -/
noncomputable def stRPHmm_forward (hmm : StRPHmmFB) : ForwardResult :=
  stRPHmm_forwardGo hmm.logSubMatrix none hmm.columns hmm.mergeColumns

/-- The per-column results of `stRPHmm_backward` (stRPHmm.c:1297-1355);
`cellProbs` are the cells' `backwardLogProb`s (which the source propagates
into the previous merge column WITHOUT the emission term), `columnProbs` the
columns' `backwardLogProb`s, `totalProb` the hmm's `backwardLogProb`. -/
structure BackwardResult where
  cellProbs : List (List LogP)
  columnProbs : List LogP
  mergeProbs : List (List LogP)
  totalProb : LogP

/-- The backward probability of one cell (stRPHmm.c:1314-1324): the next
merge cell's backward probability (log-one at the last column; log-zero when
the merge cell is missing). -/
noncomputable def backwardCellProb (next : Option (StRPMergeColumn × List LogP))
    (partition : ℕ) : LogP :=
  match next with
  | none => some 0
  | some (m, probs) =>
    match stRPMergeColumn_getNextMergeCellIdx partition m with
    | none => none
    | some k => probs.getD k none

/-- The backward probabilities accumulated into the previous merge column's
cells (stRPHmm.c:1331-1337), transcribed from the source: the value
propagated is `cell->backwardLogProb` — WITHOUT the emission term
(`mCell->backwardLogProb = stMath_logAdd(cell->backwardLogProb, mCell->backwardLogProb)`). -/
noncomputable def mergeBackwardProbs (m : StRPMergeColumn) (cells : List ℕ)
    (cellBackProbs : List LogP) : List LogP :=
  (List.range m.mergeCells.length).map (fun k =>
    (cells.zip cellBackProbs).foldl (fun acc pc =>
      if stRPMergeColumn_getPreviousMergeCellIdx pc.1 m = some k then logAddOpt pc.2 acc else acc) none)

/-- The column loop of `stRPHmm_backward` (stRPHmm.c:1297-1355), which walks
the columns from last to first; here the column, merge-column and
column-forward lists are passed reversed (last column first).  Transcribed
from the source: the per-cell update of the column backward probability is
`column->backwardLogProb = stMath_logAdd(column->forwardLogProb, backwardLogProb)`
— it OVERWRITES the column backward probability with a log-sum of the
column's FORWARD probability and the current cell's backward-plus-emission
value, instead of accumulating into the backward probability. -/
noncomputable def stRPHmm_backwardGo (logSubMatrix : ℕ → ℝ) :
    Option (StRPMergeColumn × List LogP) → List StRPColumnFB → List StRPMergeColumn →
      List LogP → BackwardResult
  | _, [], _, _ => ⟨[], [], [], none⟩
  | next, column :: rest, mcols, colFwds =>
    let bitCountVectors := calculateCountBitVectors column.bits
    let cellB := column.cells.map (backwardCellProb next)
    let bs := (column.cells.zip cellB).map (fun pc =>
      pc.2.map (· + emissionLogProbability column.bits pc.1 bitCountVectors logSubMatrix))
    let colFwd := colFwds.headD none
    let colB := bs.foldl (fun _acc b => logAddOpt colFwd b) none
    match mcols with
    | [] =>
      { cellProbs := [cellB]
        columnProbs := [colB]
        mergeProbs := []
        totalProb := bs.foldl (fun acc b => logAddOpt acc b) none }
    | m :: mrest =>
      let mb := mergeBackwardProbs m column.cells cellB
      let r := stRPHmm_backwardGo logSubMatrix (some (m, mb)) rest mrest colFwds.tail
      { cellProbs := cellB :: r.cellProbs
        columnProbs := colB :: r.columnProbs
        mergeProbs := mb :: r.mergeProbs
        totalProb := r.totalProb }

/-- `stRPHmm_backward` (stRPHmm.c:1297-1355), after
`stRPHmm_initialiseBackwardProbs` has set every backward probability to
log-zero; `forwardColumnProbs` are the columns' forward probabilities left in
place by a preceding `stRPHmm_forward`.  Results are returned in
first-to-last column order. -/
noncomputable def stRPHmm_backward (hmm : StRPHmmFB) (forwardColumnProbs : List LogP) : BackwardResult :=
  let r := stRPHmm_backwardGo hmm.logSubMatrix none hmm.columns.reverse
    hmm.mergeColumns.reverse forwardColumnProbs.reverse
  { cellProbs := r.cellProbs.reverse
    columnProbs := r.columnProbs.reverse
    mergeProbs := r.mergeProbs.reverse
    totalProb := r.totalProb }

/-- A cell as seen by `stRPHmm_prune`: its partition and the forward/backward
log probabilities left by the inference passes. -/
structure StRPPruneCell where
  partition : ℕ
  forwardLogProb : ℝ
  backwardLogProb : ℝ

/-- A column as seen by `stRPHmm_prune`. -/
structure StRPPruneColumn where
  depth : ℕ
  forwardLogProb : ℝ
  backwardLogProb : ℝ
  cells : List StRPPruneCell

/-- `stRPCell_posteriorProb` (stRPHmm.c:1568-1577):
`exp(cell->forward + cell->backward - (column->forward + column->backward))`,
clamped to at most 1 (`p > 1.0 ? 1.0 : p`). -/
noncomputable def stRPCell_posteriorProb (cell : StRPPruneCell) (column : StRPPruneColumn) : ℝ :=
  min 1 (Real.exp (cell.forwardLogProb + cell.backwardLogProb -
    (column.forwardLogProb + column.backwardLogProb)))

/-- The cell-removal loop of `stRPHmm_prune` (stRPHmm.c:1368-1381),
transcribed from the source.  The source sets `stRPCell *cell = column->head;
stRPCell **pCell = &(cell);` — `pCell` points at the loop-local variable
`cell`, not at `column->head` or at any cell's `nCell` field, and is never
re-pointed.  The only unlink statement, `*pCell = cell->nCell`, therefore
writes the local variable; no write ever reaches `column->head` or a cell's
`nCell`.  Whatever the threshold predicate selects, the column's cell chain
is left exactly as it was (the source then calls `stRPCell_destruct` on
cells that are still linked into the chain, and continues reading them —
freed-memory reads are modelled as reading the unchanged values). -/
def stRPHmm_pruneColumnCells (_below : StRPPruneCell → Prop) (cells : List StRPPruneCell) :
    List StRPPruneCell :=
  cells

/-- The column part of `stRPHmm_prune` (stRPHmm.c:1357-1412): for each column
whose depth is at least `minColumnDepthToFilter`, run the cell-removal loop
with the posterior-below-threshold test.  (The merge-cell removal the source
performs on each merge column, which uses working `stHash_remove` calls, is
not part of this column-chain projection.) -/
def stRPHmm_prune (posteriorProbabilityThreshold : ℝ) (minColumnDepthToFilter : ℤ)
    (columns : List StRPPruneColumn) : List StRPPruneColumn :=
  columns.map (fun column =>
    if minColumnDepthToFilter ≤ (column.depth : ℤ) then
      { column with
        cells := stRPHmm_pruneColumnCells
                   (fun cell => stRPCell_posteriorProb cell column < posteriorProbabilityThreshold)
                   column.cells }
    else column)

/-- The relation the spec claims holds along a tiling path: later HMMs are
greater in `stRPHmm_cmpFn` order, and two HMMs on the same reference do not
overlap (`earlier.refStart + earlier.refLength ≤ later.refStart`). -/
def tilingStep (a b : StRPHmm) : Prop :=
  stRPHmm_cmpFn a b = .lt ∧
    (a.referenceName = b.referenceName → a.refStart + a.refLength ≤ b.refStart)

/-- A concrete profile sequence (struct address 11, probability array address
111, reference 0, interval `[0,1)`). -/
def exampleProfileSeq : StProfileSeq := ⟨11, 111, 0, 0, 1⟩

/-- A concrete single-column HMM on reference 0 over `[0,4)` with one read
(header 1, probabilities 10) and the two cells `[1, 0]`. -/
def crossExample1 : StRPHmm := ⟨0, 0, 4, 1, 1, 7, [⟨0, 4, 1, [1], [10], [1, 0]⟩]⟩

/-- A second concrete single-column HMM, aligned with `crossExample1` (same
reference, interval and column count), with read header 2 / probabilities 20
and the two cells `[1, 0]`. -/
def crossExample2 : StRPHmm := ⟨0, 0, 4, 1, 1, 7, [⟨0, 4, 1, [2], [20], [1, 0]⟩]⟩

/-- A concrete single-column, single-read emission column of length 1 whose
read has probability 255 for character 0 (and 0 elsewhere). -/
def exampleBitColumn : BitColumn := ⟨1, 1, [[[255, 0, 0, 0, 0, 0, 0, 0]]]⟩

/-- A concrete single-column HMM over `[0,10)`. -/
def alignExample1 : StRPHmm := ⟨0, 0, 10, 1, 1, 7, [⟨0, 10, 1, [1], [10], [1, 0]⟩]⟩

/-- A concrete single-column HMM over `[0,5)`, overlapping `alignExample1`. -/
def alignExample2 : StRPHmm := ⟨0, 0, 5, 1, 1, 7, [⟨0, 5, 1, [2], [20], [1, 0]⟩]⟩

/-- A concrete single-column HMM over `[0,5)` on reference 0. -/
def fuseLeftExample : StRPHmm := ⟨0, 0, 5, 1, 1, 7, [⟨0, 5, 1, [1], [10], [1, 0]⟩]⟩

/-- A concrete single-column HMM over `[5,8)` on reference 0 — exactly
adjacent to `fuseLeftExample`, with no gap between them. -/
def fuseRightExample : StRPHmm := ⟨0, 5, 3, 1, 1, 7, [⟨5, 3, 1, [2], [20], [1, 0]⟩]⟩

/-- A concrete two-column HMM: read 10 occupies only column 0 and read 20
occupies only column 1. -/
def pathExampleHmm : StRPHmm :=
  ⟨0, 0, 2, 2, 1, 7, [⟨0, 1, 1, [10], [100], [1, 0]⟩, ⟨1, 1, 1, [20], [200], [1, 0]⟩]⟩

/-- Concrete HMMs for the tiling-path witness: three on reference 0 (two of
them overlapping) and one on reference 1, in `stRPHmm_cmpFn` order. -/
def tilingExampleA : StRPHmm := ⟨0, 0, 5, 1, 1, 7, []⟩

/-- Second tiling-path example HMM (overlaps `tilingExampleA`). -/
def tilingExampleB : StRPHmm := ⟨0, 3, 4, 1, 1, 7, []⟩

/-- Third tiling-path example HMM (disjoint from `tilingExampleA`). -/
def tilingExampleC : StRPHmm := ⟨0, 8, 2, 1, 1, 7, []⟩

/-- Fourth tiling-path example HMM, on a different reference. -/
def tilingExampleD : StRPHmm := ⟨1, 0, 3, 1, 1, 7, []⟩

/-- Concrete HMMs for the overlap witness. -/
def overlapExample1 : StRPHmm := ⟨0, 0, 5, 1, 1, 7, []⟩

/-- Second overlap example HMM. -/
def overlapExample2 : StRPHmm := ⟨0, 3, 4, 1, 1, 7, []⟩

/-- A concrete post-inference cell with forward = backward = -1. -/
def examplePruneCell : StRPPruneCell := ⟨0, -1, -1⟩

/-- A concrete post-inference column of depth 1 with forward = backward = 0,
holding `examplePruneCell`; the cell's posterior is `exp(-2) < 1/2`. -/
def examplePruneColumn : StRPPruneColumn := ⟨1, 0, 0, [examplePruneCell]⟩

/-- A concrete forward/backward column: one read of length 1 with an all-zero
probability record, and the two cells `[0, 0]` produced by
`stRPHmm_construct` (see `stRPCell_construct`). -/
def exampleFBColumn : StRPColumnFB := ⟨⟨1, 1, [[[0, 0, 0, 0, 0, 0, 0, 0]]]⟩, [0, 0]⟩

/-- A concrete single-column forward/backward HMM (no merge columns) with the
all-zero substitution matrix. -/
noncomputable def exampleFBHmm : StRPHmmFB := ⟨[exampleFBColumn], [], fun _ => 0⟩

/-- The emission log probability of the partition-0 cells of
`exampleFBColumn` under the all-zero substitution matrix (both cells of the
example column have partition 0, so this is the emission term of every cell
in `exampleFBHmm`). -/
noncomputable def exampleEmission : ℝ :=
  emissionLogProbability exampleFBColumn.bits 0 (calculateCountBitVectors exampleFBColumn.bits)
    (fun _ => 0)

/-- C1: evaluation at a pair of aligned single-column HMMs whose columns each
hold the two cells `[1, 0]`.  The claim asks for one cell per ordered pair of
input cells (partitions `[3, 2, 1, 0]` via `mergePartitionsOrMasks`); the
code instead produces a single cell with partition 0, because the linking
step `pCell = &cell` re-points `pCell` at the loop-local variable (so only
the first constructed cell is ever linked) and `stRPCell_construct` discards
the partition it is given. -/
theorem c1_cross_product_single_zero_cell :
    (stRPHmm_createCrossProductOfTwoAlignedHmm crossExample1 crossExample2).map
        (fun hmm => hmm.columns.map (·.cells)) = some [[0]] ∧
      (stRPHmm_createCrossProductOfTwoAlignedHmm crossExample1 crossExample2).map
        (fun hmm => hmm.columns.map (·.cells)) ≠ some [[3, 2, 1, 0]] := by
  constructor <;> decide

/-- C2: evaluation of `stRPHmm_construct` at a concrete profile sequence: the
single column does hold exactly two cells, but both have partition 0 — the
head cell's partition is 0, not 1 as claimed, because `stRPCell_construct`
discards its argument. -/
theorem c2_construct_head_cell_partition_zero :
    (stRPHmm_construct exampleProfileSeq 7).columns.map (·.cells) = [[0, 0]] ∧
      (stRPHmm_construct exampleProfileSeq 7).columns.map (·.cells) ≠ [[1, 0]] := by
  constructor <;> decide

/-- C3: at a depth-1, length-1 column whose read has 8-bit probability 255
for channel 0, with partition 1, the bit-sliced expected instance count
computed by `getExpectedInstanceNumber` over `calculateCountBitVectors` is 0
(the `&=` accumulation in `calculateBitCountVector` zeroes every bit count
vector), while the naive per-read sum of the claim is 1; they differ by 1,
far beyond the claimed 1e-9 agreement. -/
theorem c3_bit_sliced_count_disagrees_with_naive :
    getExpectedInstanceNumber (calculateCountBitVectors exampleBitColumn) 1 1 0 0 = 0 ∧
      specNaiveExpectedInstanceNumber exampleBitColumn 1 1 0 0 = 1 ∧
      ¬ |getExpectedInstanceNumber (calculateCountBitVectors exampleBitColumn) 1 1 0 0 -
          specNaiveExpectedInstanceNumber exampleBitColumn 1 1 0 0| < 1 / 1000000000 := by
  have hcode : getExpectedInstanceNumber (calculateCountBitVectors exampleBitColumn) 1 1 0 0 = 0 := by
    have hraw : (List.range 1).foldl (fun acc i =>
        acc + popcount64 (calculateCountBitVectors exampleBitColumn
          (retrieveBitCountVectorIndex 0 0 i) &&& 1) * 2 ^ i) 0 = 0 := by decide
    show (((List.range 1).foldl (fun acc i =>
        acc + popcount64 (calculateCountBitVectors exampleBitColumn
          (retrieveBitCountVectorIndex 0 0 i) &&& 1) * 2 ^ i) 0 : ℕ) : ℚ) /
      (((2 : ℚ) ^ NUCLEOTIDE_ALPHABET_SIZE - 1) * ((1 : ℕ) : ℚ)) = 0
    rw [hraw]
    norm_num
  have hnaive : specNaiveExpectedInstanceNumber exampleBitColumn 1 1 0 0 = 1 := by
    have h1 : (List.range 1).filter (fun i => Nat.testBit 1 i) = [0] := by decide
    have h2 : profileProb exampleBitColumn 0 0 0 = 255 := by decide
    simp [specNaiveExpectedInstanceNumber, h1, h2]
  refine ⟨hcode, hnaive, ?_⟩
  rw [hcode, hnaive]
  norm_num

/-- C6: evaluation of `stRPHmm_alignColumns` at two overlapping single-column
HMMs with equal start coordinates and lengths 10 and 5.  Afterwards both
record a `[0,10)` span with 2 columns each, but the per-index columns are
`(0,10), (5,5)` against `(0,5), (10,5)`: the suffix filler column appended
to the shorter HMM is placed at `hmm1->lastColumn`'s end instead of at the
shorter HMM's own end (index-1 refStarts 5 vs 10), and `stRPColumn_split`
never truncates the column it splits (index-0 lengths 10 vs 5), so the
aligned columns cover neither the same starts nor the same lengths. -/
theorem c6_align_columns_misaligned :
    (stRPHmm_alignColumns alignExample1 alignExample2).map
        (fun r => (r.1.columns.map (fun c => (c.refStart, c.length)),
                   r.2.columns.map (fun c => (c.refStart, c.length)),
                   r.1.columnNumber, r.2.columnNumber)) =
      some ([(0, 10), (5, 5)], [(0, 5), (10, 5)], 2, 2) ∧
    (stRPHmm_alignColumns alignExample1 alignExample2).map (fun r => r.1.columns.map (·.refStart)) ≠
      (stRPHmm_alignColumns alignExample1 alignExample2).map (fun r => r.2.columns.map (·.refStart)) := by
  constructor <;> decide

/-- C7: evaluation of `stRPHmm_fuse` at two exactly adjacent HMMs
(`[0,5)` and `[5,8)`, so `rightHmm.refStart = leftHmm.refStart +
leftHmm.refLength` and no gap exists).  The code nevertheless inserts a
depth-0 bridge column, of length 10 (the mis-parenthesised
`rightHmm->refStart - leftHmm->refStart + leftHmm->refLength`), so the
result's columns `[0,5), [5,15), [5,8)` do not tile the fused interval. -/
theorem c7_fuse_inserts_bridge_without_gap :
    (stRPHmm_fuse fuseLeftExample fuseRightExample).map
        (fun hmm => hmm.columns.map (fun c => (c.refStart, c.length, c.depth))) =
      some [(0, 5, 1), (5, 10, 0), (5, 3, 1)] ∧
      fuseRightExample.refStart = fuseLeftExample.refStart + fuseLeftExample.refLength := by
  constructor <;> decide

/-- C8: evaluation at a two-column HMM in which read 10 occupies only column
0 and read 20 occupies only column 1, with the path `[0, 1]` (partition 0 at
column 0, partition 1 at column 1).  The claimed per-column membership set is
`{20}`; the code returns `{10}` because its column cursor is never advanced
past the first column. -/
theorem c8_partition_uses_first_column_only :
    stRPHmm_partitionSequencesByStatePath pathExampleHmm [0, 1] = [10] ∧
      specPartitionSequencesByStatePath pathExampleHmm [0, 1] = [20] := by
  constructor <;> decide

/-- sonLib's `stMath_logAdd` on finite values equals the exact log-sum-exp. -/
theorem stMath_logAdd_eq (x y : ℝ) :
    stMath_logAdd x y = Real.log (Real.exp x + Real.exp y) := by
  unfold stMath_logAdd
  rcases le_total x y with h | h
  · rw [max_eq_right h, min_eq_left h]
    have hpos : (0:ℝ) < 1 + Real.exp (x - y) := by positivity
    have h2 : Real.exp y * (1 + Real.exp (x - y)) = Real.exp x + Real.exp y := by
      rw [mul_add, mul_one, ← Real.exp_add, show y + (x - y) = x by ring]
      ring
    rw [← h2, Real.log_mul (Real.exp_ne_zero y) (ne_of_gt hpos), Real.log_exp]
  · rw [max_eq_left h, min_eq_right h]
    have hpos : (0:ℝ) < 1 + Real.exp (y - x) := by positivity
    have h2 : Real.exp x * (1 + Real.exp (y - x)) = Real.exp x + Real.exp y := by
      rw [mul_add, mul_one, ← Real.exp_add, show x + (y - x) = y by ring]
    rw [← h2, Real.log_mul (Real.exp_ne_zero x) (ne_of_gt hpos), Real.log_exp]

/-- C4: counterexample evaluation at the single-read, single-column HMM
`exampleFBHmm` (the shape every HMM from `stRPHmm_construct` has).  After
`stRPHmm_forward` and `stRPHmm_backward`, the column's `backwardLogProb`
exceeds the hmm's `backwardLogProb` by `log 3 - log 2 = log (3/2) ≈ 0.405 >
0.01`: the backward pass overwrites the column backward probability with
`stMath_logAdd(column->forwardLogProb, backwardLogProb)` — folding in the
column's FORWARD probability instead of accumulating the backward ones — so
the claimed per-column agreement (the repository's own test asserts it with
tolerance 0.01, stRPHmmTest.c:367-368) fails. -/
theorem c4_backward_column_disagrees_with_total : ∃ x y : ℝ,
    (stRPHmm_backward exampleFBHmm (stRPHmm_forward exampleFBHmm).columnProbs).columnProbs =
      [some x] ∧
    (stRPHmm_backward exampleFBHmm (stRPHmm_forward exampleFBHmm).columnProbs).totalProb =
      some y ∧
    1 / 100 < x - y := by
  refine ⟨stMath_logAdd (stMath_logAdd (0 + exampleEmission) (0 + exampleEmission))
      (0 + exampleEmission),
    stMath_logAdd (0 + exampleEmission) (0 + exampleEmission), rfl, rfl, ?_⟩
  set a := 0 + exampleEmission with ha
  have hA : stMath_logAdd a a = Real.log 2 + a := by
    rw [stMath_logAdd_eq, show Real.exp a + Real.exp a = 2 * Real.exp a by ring,
      Real.log_mul (by norm_num) (Real.exp_ne_zero a), Real.log_exp]
  have hX : stMath_logAdd (stMath_logAdd a a) a = Real.log 3 + a := by
    rw [hA, stMath_logAdd_eq, Real.exp_add, Real.exp_log (by norm_num : (0:ℝ) < 2),
      show 2 * Real.exp a + Real.exp a = 3 * Real.exp a by ring,
      Real.log_mul (by norm_num) (Real.exp_ne_zero a), Real.log_exp]
  rw [hX, hA]
  have h1 : (99:ℝ)/100 ≤ Real.exp (-(1/100)) := by
    have := Real.add_one_le_exp (-(1/100) : ℝ)
    linarith
  have h2 : Real.exp (1/100) ≤ 100/99 := by
    rw [show (1:ℝ)/100 = -(-(1/100)) by ring, Real.exp_neg]
    rw [show (100:ℝ)/99 = ((99:ℝ)/100)⁻¹ by norm_num]
    exact inv_anti₀ (by norm_num) h1
  have h3 : (1:ℝ)/100 < Real.log (3/2) := by
    rw [Real.lt_log_iff_exp_lt (by norm_num : (0:ℝ) < 3/2)]
    calc Real.exp (1/100) ≤ 100/99 := h2
      _ < 3/2 := by norm_num
  have h4 : Real.log (3/2) = Real.log 3 - Real.log 2 :=
    Real.log_div (by norm_num) (by norm_num)
  linarith

/-- C5: `stRPHmm_prune` never removes a cell from any column's chain (its
unlink statement writes through a pointer to a loop-local variable, see
`stRPHmm_pruneColumnCells`), so chains of columns below the depth threshold
are indeed unchanged, but so are all others: at the concrete depth-1 column
(depth ≥ minColumnDepthToFilter = 0) the surviving cell has posterior
`exp(-2) < 1/2 = posteriorProbabilityThreshold`, contradicting the claim that
every surviving cell has posterior at least the threshold. -/
theorem c5_prune_keeps_low_posterior_cell :
    (∀ (t : ℝ) (d : ℤ) (columns : List StRPPruneColumn),
        (stRPHmm_prune t d columns).map (·.cells) = columns.map (·.cells)) ∧
      stRPCell_posteriorProb examplePruneCell examplePruneColumn < 1 / 2 ∧
      (stRPHmm_prune (1 / 2) 0 [examplePruneColumn]).map (·.cells) = [[examplePruneCell]] := by
  have hid : ∀ (t : ℝ) (d : ℤ) (columns : List StRPPruneColumn),
      (stRPHmm_prune t d columns).map (·.cells) = columns.map (·.cells) := by
    intro t d columns
    simp only [stRPHmm_prune, List.map_map]
    refine List.map_congr_left fun c _hc => ?_
    by_cases h : d ≤ (c.depth : ℤ) <;> simp [h, stRPHmm_pruneColumnCells]
  have hpost : stRPCell_posteriorProb examplePruneCell examplePruneColumn < 1 / 2 := by
    show min 1 (Real.exp ((-1) + (-1) - ((0:ℝ) + 0))) < 1 / 2
    have hexp : ((-1:ℝ)) + (-1) - ((0:ℝ) + 0) = -2 := by norm_num
    rw [hexp]
    have h23 : (2:ℝ) < Real.exp 2 := by
      have := Real.add_one_le_exp (2:ℝ)
      linarith
    calc min 1 (Real.exp (-2:ℝ)) ≤ Real.exp (-2:ℝ) := min_le_right _ _
      _ = (Real.exp 2)⁻¹ := Real.exp_neg 2
      _ < 2⁻¹ := by
          rw [inv_lt_inv₀ (Real.exp_pos 2) (by norm_num : (0:ℝ) < 2)]
          exact h23
      _ = 1 / 2 := by norm_num
  refine ⟨hid, hpost, ?_⟩
  rw [hid]
  rfl

/-- `stRPHmm_cmpFn a b = .lt` unfolded to the lexicographic order on
`(referenceName, refStart, refLength)`. -/
theorem stRPHmm_cmpFn_lt_iff (a b : StRPHmm) :
    stRPHmm_cmpFn a b = .lt ↔
      a.referenceName < b.referenceName ∨
        (a.referenceName = b.referenceName ∧
          (a.refStart < b.refStart ∨ (a.refStart = b.refStart ∧ a.refLength < b.refLength))) := by
  simp only [stRPHmm_cmpFn, strcmpN, cmpint]
  split_ifs <;> simp_all <;> omega

/-- `stRPHmm_cmpFn` is reflexive into `.eq`. -/
theorem stRPHmm_cmpFn_self (a : StRPHmm) : stRPHmm_cmpFn a a = .eq := by
  simp [stRPHmm_cmpFn, strcmpN, cmpint]

/-- `tilingStep` is transitive: names are non-decreasing along `stRPHmm_cmpFn`
and, within a block of equal names, starts are non-decreasing, so the
non-overlap of consecutive links extends to all pairs. -/
theorem tilingStep_trans (a b c : StRPHmm) (hab : tilingStep a b) (hbc : tilingStep b c) :
    tilingStep a c := by
  obtain ⟨hab1, hab2⟩ := hab
  obtain ⟨hbc1, hbc2⟩ := hbc
  rw [stRPHmm_cmpFn_lt_iff] at hab1 hbc1
  unfold tilingStep
  rw [stRPHmm_cmpFn_lt_iff]
  constructor
  · omega
  · intro hac
    omega

/-- A successor returned by `getNextClosestNonoverlappingHmm` satisfies
`tilingStep`: it comes after `hmm1` in the set order, and its acceptance test
is exactly different-reference-or-non-overlapping. -/
theorem nextClosest_step {hmm1 hmm2 : StRPHmm} {hmms : List StRPHmm}
    (h : getNextClosestNonoverlappingHmm hmm1 hmms = some hmm2) : tilingStep hmm1 hmm2 := by
  have hmem := List.mem_of_find?_eq_some h
  have hpred := List.find?_some h
  simp only [hmmsAfter, List.mem_filter, decide_eq_true_eq] at hmem
  constructor
  · exact hmem.2
  · intro hname
    simp only [decide_eq_true_eq] at hpred
    rcases hpred with hp | hp
    · exact absurd hname hp
    · exact hp

/-- A successor returned by `getNextClosestNonoverlappingHmm` is a member of
the set. -/
theorem nextClosest_mem {hmm1 hmm2 : StRPHmm} {hmms : List StRPHmm}
    (h : getNextClosestNonoverlappingHmm hmm1 hmms = some hmm2) : hmm2 ∈ hmms := by
  have hmem := List.mem_of_find?_eq_some h
  simp only [hmmsAfter, List.mem_filter] at hmem
  exact hmem.1

/-- A successor returned by `getNextClosestNonoverlappingHmm` differs from the
element it succeeds. -/
theorem nextClosest_ne {hmm1 hmm2 : StRPHmm} {hmms : List StRPHmm}
    (h : getNextClosestNonoverlappingHmm hmm1 hmms = some hmm2) : hmm2 ≠ hmm1 := by
  intro heq
  have hstep := nextClosest_step h
  rw [heq] at hstep
  have := hstep.1
  rw [stRPHmm_cmpFn_self] at this
  exact absurd this (by simp)

/-- Every chain built by the inner loop of `getTilingPaths` is linked by
`tilingStep`. -/
theorem tilingChainGo_chain (fuel : ℕ) (hmm : StRPHmm) (hmms : List StRPHmm) :
    List.Chain' tilingStep (hmm :: (tilingChainGo fuel hmm hmms).1) := by
  induction fuel generalizing hmm hmms with
  | zero => simp [tilingChainGo]
  | succ n ih =>
    rw [tilingChainGo]
    cases h : getNextClosestNonoverlappingHmm hmm hmms with
    | none => simp
    | some hmm2 =>
      exact List.Chain'.cons (nextClosest_step h) (ih hmm2 (hmms.erase hmm))

/-- The inner loop of `getTilingPaths` splits the set into the extracted chain
and the leftover set: together with the chain head they are a permutation of
the input set. -/
theorem tilingChainGo_perm (fuel : ℕ) (hmm : StRPHmm) (hmms : List StRPHmm) (h : hmm ∈ hmms) :
    hmms.Perm (hmm :: ((tilingChainGo fuel hmm hmms).1 ++ (tilingChainGo fuel hmm hmms).2)) := by
  induction fuel generalizing hmm hmms with
  | zero =>
    simpa [tilingChainGo] using List.perm_cons_erase h
  | succ n ih =>
    rw [tilingChainGo]
    cases hn : getNextClosestNonoverlappingHmm hmm hmms with
    | none =>
      simpa using List.perm_cons_erase h
    | some hmm2 =>
      have hmem2 : hmm2 ∈ hmms.erase hmm :=
        (List.mem_erase_of_ne (nextClosest_ne hn)).mpr (nextClosest_mem hn)
      have h1 : hmms.Perm (hmm :: hmms.erase hmm) := List.perm_cons_erase h
      have h2 := ih hmm2 (hmms.erase hmm) hmem2
      exact h1.trans (h2.cons hmm)

/-- The concatenation of the tiling paths is a permutation of the input set:
every input HMM ends up in exactly one path. -/
theorem getTilingPathsGo_flatten_perm (fuel : ℕ) (hmms : List StRPHmm) (h : hmms.length ≤ fuel) :
    (getTilingPathsGo fuel hmms).flatten.Perm hmms := by
  induction fuel generalizing hmms with
  | zero =>
    have hnil : hmms = [] := List.eq_nil_of_length_eq_zero (Nat.le_zero.mp h)
    simp [getTilingPathsGo, hnil]
  | succ n ih =>
    cases hmms with
    | nil => simp [getTilingPathsGo]
    | cons hmm rest =>
      rw [getTilingPathsGo]
      simp only [List.length_cons, List.flatten_cons]
      have hperm := tilingChainGo_perm (rest.length + 1) hmm (hmm :: rest)
        (List.mem_cons_self _ _)
      have hlen : ((tilingChainGo (rest.length + 1) hmm (hmm :: rest)).2).length ≤ n := by
        have hl := hperm.length_eq
        simp only [List.length_cons, List.length_append] at hl h
        omega
      have h2 := ih _ hlen
      refine (List.Perm.append_left _ h2).trans ?_
      simpa using hperm.symm

/-- Every tiling path is a `tilingStep` chain. -/
theorem getTilingPathsGo_chains (fuel : ℕ) (hmms : List StRPHmm) :
    ∀ p ∈ getTilingPathsGo fuel hmms, List.Chain' tilingStep p := by
  induction fuel generalizing hmms with
  | zero => simp [getTilingPathsGo]
  | succ n ih =>
    cases hmms with
    | nil => simp [getTilingPathsGo]
    | cons hmm rest =>
      rw [getTilingPathsGo]
      intro p hp
      rcases List.mem_cons.mp hp with rfl | hp'
      · exact tilingChainGo_chain _ _ _
      · exact ih _ p hp'

/-- C9: for a sorted set of HMMs, `getTilingPaths` puts every input HMM in
exactly one path (the paths' concatenation is a permutation of the input),
and within each path every pair (not just consecutive ones) is ordered by
`stRPHmm_cmpFn` and non-overlapping when on the same reference
(`earlier.refStart + earlier.refLength ≤ later.refStart`). -/
theorem c9_getTilingPaths_partition_and_order (hmms : List StRPHmm)
    (_hsorted : hmms.Pairwise (fun a b => stRPHmm_cmpFn a b = .lt)) :
    (getTilingPaths hmms).flatten.Perm hmms ∧
      ∀ p ∈ getTilingPaths hmms, p.Pairwise tilingStep := by
  refine ⟨getTilingPathsGo_flatten_perm _ _ le_rfl, fun p hp => ?_⟩
  haveI : IsTrans StRPHmm tilingStep := ⟨fun a b c => tilingStep_trans a b c⟩
  exact List.chain'_iff_pairwise.mp (getTilingPathsGo_chains _ _ p hp)

/-- C9 witness: the theorem applied to a concrete sorted list of four HMMs
(two overlapping on reference 0, one disjoint, one on reference 1). -/
theorem c9_getTilingPaths_witness :
    ([tilingExampleA, tilingExampleB, tilingExampleC, tilingExampleD].Pairwise
        (fun a b => stRPHmm_cmpFn a b = .lt)) ∧
      ((getTilingPaths [tilingExampleA, tilingExampleB, tilingExampleC, tilingExampleD]).flatten.Perm
          [tilingExampleA, tilingExampleB, tilingExampleC, tilingExampleD] ∧
        ∀ p ∈ getTilingPaths [tilingExampleA, tilingExampleB, tilingExampleC, tilingExampleD],
          p.Pairwise tilingStep) :=
  ⟨by decide, c9_getTilingPaths_partition_and_order _ (by decide)⟩

/-- `stRPHmm_overlapOnReferenceGo` at any positive fuel unfolds one step. -/
theorem stRPHmm_overlapOnReferenceGo_succ (fuel : ℕ) (hmm1 hmm2 : StRPHmm) :
    stRPHmm_overlapOnReferenceGo (fuel + 1) hmm1 hmm2 =
      if hmm1.refLength ≤ 0 ∨ hmm2.refLength ≤ 0 then none
      else if hmm1.referenceName ≠ hmm2.referenceName then some false
      else if hmm1.refStart > hmm2.refStart then stRPHmm_overlapOnReferenceGo fuel hmm2 hmm1
      else some (decide (hmm1.refStart + hmm1.refLength > hmm2.refStart)) := rfl

/-- C10: `stRPHmm_overlapOnReference` aborts exactly when either HMM has a
non-positive reference length; it is symmetric in its arguments; and for
positive lengths it returns true exactly when the reference names agree and
the coordinate intervals intersect. -/
theorem c10_overlap_on_reference_contract :
    (∀ hmm1 hmm2 : StRPHmm,
        (stRPHmm_overlapOnReference hmm1 hmm2 = none ↔
          hmm1.refLength ≤ 0 ∨ hmm2.refLength ≤ 0)) ∧
    (∀ hmm1 hmm2 : StRPHmm,
        stRPHmm_overlapOnReference hmm1 hmm2 = stRPHmm_overlapOnReference hmm2 hmm1) ∧
    (∀ hmm1 hmm2 : StRPHmm, 0 < hmm1.refLength → 0 < hmm2.refLength →
        (stRPHmm_overlapOnReference hmm1 hmm2 = some true ↔
          hmm1.referenceName = hmm2.referenceName ∧
          hmm1.refStart < hmm2.refStart + hmm2.refLength ∧
          hmm2.refStart < hmm1.refStart + hmm1.refLength)) := by
  refine ⟨fun hmm1 hmm2 => ?_, fun hmm1 hmm2 => ?_, fun hmm1 hmm2 l1 l2 => ?_⟩ <;>
    simp only [stRPHmm_overlapOnReference, stRPHmm_overlapOnReferenceGo_succ,
      stRPHmm_overlapOnReferenceGo] <;>
    split_ifs <;> simp_all <;> omega

/-- C10 witness: the theorem applied to two concrete overlapping HMMs of
positive length. -/
theorem c10_overlap_witness :
    0 < overlapExample1.refLength ∧ 0 < overlapExample2.refLength ∧
      (stRPHmm_overlapOnReference overlapExample1 overlapExample2 = some true ↔
        overlapExample1.referenceName = overlapExample2.referenceName ∧
        overlapExample1.refStart < overlapExample2.refStart + overlapExample2.refLength ∧
        overlapExample2.refStart < overlapExample1.refStart + overlapExample1.refLength) :=
  ⟨by decide, by decide,
    c10_overlap_on_reference_contract.2.2 overlapExample1 overlapExample2 (by decide) (by decide)⟩
